import Mathlib

/-!
Verification of the Voxel-Space terrain renderer (src/main.rs).

Shallow embedding conventions:
* f32 arithmetic is modeled by exact rational arithmetic over ℚ
  (the motion and frustum constants 0.25, 5.0, 400.0, 512.0 are exact in
  f32; the damping factor 0.9 is modeled by the exact rational 9/10).
* u8 / u32 / usize values are modeled by ℕ.
* Fallible slice indexing, which aborts the process in the source, is
  modeled by Option: a failed bounds check yields none.
* The intermediate buffer new_frame (a Vec<u8> of length 3 * frame.len())
  is modeled as a total function ℕ → ℕ from byte index to byte value,
  initialized to 0; all writes the renderer performs land below
  3 * frame.len() whenever frame has the standard 640*480*4 length.
-/

/-- SCREEN_WIDTH constant (main.rs line 12). -/
def SCREEN_WIDTH : ℕ := 640

/-- SCREEN_HEIGHT constant (main.rs line 13). -/
def SCREEN_HEIGHT : ℕ := 480

/-- Rust float-to-usize as-cast semantics: truncate toward zero, saturating
below at 0 and above at usize::MAX.  Used for `ray_pos[_] as usize` and
`self.far_clip as usize`.  (Rat.floor is used rather than the ⌊⌋ notation so
the definition evaluates by kernel reduction; they agree by Rat.floor_def.) -/
def f32ToUsize (q : ℚ) : ℕ := min (max q.floor 0).toNat (2 ^ 64 - 1)

/-- TerrainMap (main.rs lines 244-249): map_dimensions = (width, height),
and the two flat byte rasters produced by to_rgba8().into_vec(). -/
structure TerrainMap where
  map_dimensions : ℕ × ℕ
  color_map : List ℕ
  height_map : List ℕ

/-- Well-formedness of a loaded map: positive dimensions, both rasters are
RGBA byte buffers of length 4 * width * height, and all entries are bytes. -/
def TerrainMap.WF (tm : TerrainMap) : Prop :=
  0 < tm.map_dimensions.1 ∧ 0 < tm.map_dimensions.2
    ∧ tm.color_map.length = 4 * (tm.map_dimensions.1 * tm.map_dimensions.2)
    ∧ tm.height_map.length = 4 * (tm.map_dimensions.1 * tm.map_dimensions.2)
    ∧ (∀ b ∈ tm.color_map, b < 256) ∧ (∀ b ∈ tm.height_map, b < 256)

/-- Modelled from the spec: image decoding is an external collaborator
("decoded externally into RGBA byte buffers", spec section 6).  An image is
an RGBA raster of the given dimensions, so its byte length is
4 * width * height (what to_rgba8().into_vec() of the image crate returns). -/
structure Image where
  width : ℕ
  height : ℕ
  rgba : List ℕ
  rgba_length : rgba.length = 4 * (width * height)

/-- TerrainMap::new (main.rs lines 254-283): the stored dimensions are taken
from the color image only, and each raster is the RGBA byte vector of the
corresponding decoded image.  No dimension cross-validation is performed. -/
def TerrainMap.new (color_map_img height_map_img : Image) : TerrainMap :=
  { map_dimensions := (color_map_img.width, color_map_img.height)
    color_map := color_map_img.rgba
    height_map := height_map_img.rgba }

/-- Camera state (main.rs lines 126-134). -/
structure Camera where
  velocity : Fin 3 → ℚ
  position : Fin 3 → ℚ
  rotation : Fin 2 → ℚ
  far_clip : ℚ
  acceleration : ℚ
  max_speed : ℚ

/-- Camera::new (main.rs lines 138-149); 0.25 = 1/4 exactly in f32. -/
def Camera.new : Camera :=
  { velocity := ![0, 0, 0]
    position := ![512, 512, 0]
    rotation := ![0, 0]
    far_clip := 400
    acceleration := 1 / 4
    max_speed := 5 }

/-- One axis of Camera::update (main.rs lines 154-162): clamp the velocity
from above by max_speed, then damp by 0.9.  The clamp is one-sided. -/
def clampDamp (max_speed v : ℚ) : ℚ :=
  (if v > max_speed then max_speed else v) * (9 / 10)

/-- Camera::update (main.rs lines 151-163): per axis, clamp velocity from
above, damp by 0.9, then add the damped velocity to the position.  The three
axes do not interact, so the source's in-place loop over i = 0,1,2 is the
same as this pointwise update. -/
def Camera.update (c : Camera) : Camera :=
  { c with
    velocity := fun i => clampDamp c.max_speed (c.velocity i)
    position := fun i => c.position i + clampDamp c.max_speed (c.velocity i) }

/-- The flattened terrain index (main.rs lines 206-207):
map_dimensions[X] * (ray_pos[Y] as usize) + (ray_pos[X] as usize). -/
def mapOffset (tm : TerrainMap) (rx ry : ℚ) : ℕ :=
  tm.map_dimensions.1 * f32ToUsize ry + f32ToUsize rx

/-- A single byte store into the intermediate buffer. -/
def writeByte (nf : ℕ → ℕ) (idx v : ℕ) : ℕ → ℕ :=
  fun j => if j = idx then v else nf j

/-- The paint loop (main.rs lines 214-220): for screen_y in 0..h, write the
three sampled color bytes at pixel_index = SCREEN_WIDTH * screen_y (+0, +1,
+2).  Note the source omits + screen_x from pixel_index. -/
def paintRows (nf : ℕ → ℕ) (cR cG cB : ℕ) : ℕ → (ℕ → ℕ)
  | 0 => nf
  | y + 1 =>
      writeByte
        (writeByte
          (writeByte (paintRows nf cR cG cB y) (SCREEN_WIDTH * y + 0) cR)
          (SCREEN_WIDTH * y + 1) cG)
        (SCREEN_WIDTH * y + 2) cB

/-- Per-column ray-march state: ray_pos, max_projected_height and the
intermediate buffer new_frame. -/
structure MarchState where
  rayX : ℚ
  rayY : ℚ
  maxH : ℕ
  nf : ℕ → ℕ

/-- The height sample a march step reads (main.rs lines 203-208): the ray is
advanced by delta_pos first (x += dx, y -= dy), then height_map[map_offset]
is read. -/
def stepHeight (tm : TerrainMap) (dP : ℚ × ℚ) (st : MarchState) : Option ℕ :=
  tm.height_map.get? (mapOffset tm (st.rayX + dP.1) (st.rayY - dP.2))

/-- One iteration of the depth loop (main.rs lines 201-228).  The color
reads color_map[map_offset + 0/1/2] only happen when the paint loop runs at
least once (0 < h); a failed read aborts the program (none).  When
h < max_projected_height the rows 0..h-1 are painted and
max_projected_height is set to h (also when h = 0, line 221). -/
def marchStep (tm : TerrainMap) (dP : ℚ × ℚ) (st : MarchState) : Option MarchState :=
  match stepHeight tm dP st with
  | none => none
  | some hb =>
      let rx := st.rayX + dP.1
      let ry := st.rayY - dP.2
      let off := mapOffset tm rx ry
      if hb < st.maxH then
        if 0 < hb then
          match tm.color_map.get? (off + 0), tm.color_map.get? (off + 1), tm.color_map.get? (off + 2) with
          | some cR, some cG, some cB =>
              some ⟨rx, ry, hb, paintRows st.nf cR cG cB hb⟩
          | _, _, _ => none
        else
          some ⟨rx, ry, hb, st.nf⟩
      else
        some ⟨rx, ry, st.maxH, st.nf⟩

/-- n iterations of the depth loop. -/
def marchN (tm : TerrainMap) (dP : ℚ × ℚ) : ℕ → MarchState → Option MarchState
  | 0, st => some st
  | n + 1, st => (marchStep tm dP st).bind (marchN tm dP n)

/-- Left far frustum bound (main.rs lines 171-175): [0.0 - far_clip, far_clip]. -/
def leftFar (fc : ℚ) : ℚ × ℚ := (0 - fc, fc)

/-- Right far frustum bound (main.rs lines 177-181): [far_clip, far_clip]. -/
def rightFar (fc : ℚ) : ℚ × ℚ := (fc, fc)

/-- delta_pos for screen column x (main.rs lines 186-190). -/
def columnDelta (fc : ℚ) (x : ℕ) : ℚ × ℚ :=
  (((leftFar fc).1 + ((rightFar fc).1 - (leftFar fc).1) / (SCREEN_WIDTH : ℚ) * (x : ℚ)) / fc,
   ((leftFar fc).2 + ((rightFar fc).2 - (leftFar fc).2) / (SCREEN_WIDTH : ℚ) * (x : ℚ)) / fc)

/-- The state a column starts from (main.rs lines 191-198): ray_pos at the
camera position, max_projected_height = SCREEN_HEIGHT, and the intermediate
buffer carried over from the previous columns. -/
def columnInit (px py : ℚ) (nf : ℕ → ℕ) : MarchState :=
  ⟨px, py, SCREEN_HEIGHT, nf⟩

/-- One column of the render: ray_z runs over 1..(far_clip as usize), i.e.
(far_clip as usize) - 1 iterations (main.rs line 201). -/
def columnMarch (tm : TerrainMap) (px py fc : ℚ) (x : ℕ) (nf : ℕ → ℕ) :
    Option (ℕ → ℕ) :=
  (marchN tm (columnDelta fc x) (f32ToUsize fc - 1) (columnInit px py nf)).map
    MarchState.nf

/-- The full ray-march (main.rs lines 184-229): all screen columns in order,
threading the intermediate buffer, which starts as all zero bytes
(vec![0x00; ...], line 168). -/
def renderNF (tm : TerrainMap) (px py fc : ℚ) : Option (ℕ → ℕ) :=
  (List.range SCREEN_WIDTH).foldl
    (fun acc x => acc.bind (columnMarch tm px py fc x))
    (some (fun _ => 0))

/-- The intermediate buffer produced by Camera::draw for this camera; the
projection reads only position[X], position[Y] and far_clip. -/
def Camera.drawNF (c : Camera) (tm : TerrainMap) : Option (ℕ → ℕ) :=
  renderNF tm (c.position 0) (c.position 1) c.far_clip

/-- The compositing loop (main.rs lines 232-240): the frame is walked in
chunks of exactly 4 bytes (chunks_exact_mut(4), a trailing fragment shorter
than 4 bytes is left untouched); chunk i gets R = G = B = new_frame[i] and
A = 0xFF.  In the source new_frame[i] is a checked read; it is in bounds for
every chunk index of a frame of the standard length. -/
def composite (nf : ℕ → ℕ) (i : ℕ) : List ℕ → List ℕ
  | _ :: _ :: _ :: _ :: rest => nf i :: nf i :: nf i :: 255 :: composite nf (i + 1) rest
  | rest => rest

/-- Camera::draw (main.rs lines 165-241): march all columns into the
intermediate buffer, then composite it into the externally supplied frame. -/
def Camera.draw (c : Camera) (frame : List ℕ) (tm : TerrainMap) : Option (List ℕ) :=
  (c.drawNF tm).map (fun nf => composite nf 0 frame)

/-- One input tick of the main loop while the D key is held
(main.rs lines 99-100 then line 120): acceleration is added to
velocity[0], then Camera::update runs. -/
def heldTick (c : Camera) : Camera :=
  Camera.update
    { c with velocity := fun i => if i = 0 then c.velocity 0 + c.acceleration else c.velocity i }

/-- Camera state after n ticks of holding one direction key, from startup. -/
def held : ℕ → Camera
  | 0 => Camera.new
  | n + 1 => heldTick (held n)

/-- Camera states reachable through the main loop: the initial camera,
followed by any number of input ticks.  Each tick adds k * acceleration
with k ∈ {-1, 0, 1} to each velocity axis (a held key, its opposite, both
or neither; main.rs lines 93-104) and then runs Camera::update. -/
inductive Reachable : Camera → Prop
  | init : Reachable Camera.new
  | step (ks : Fin 3 → ℤ) (hks : ∀ i, |ks i| ≤ 1) (c : Camera) :
      Reachable c →
      Reachable (Camera.update
        { c with velocity := fun i => c.velocity i + (ks i : ℚ) * c.acceleration })

/-- A camera whose far clip of 0 makes the depth loop empty (1..0). -/
def camZ : Camera := { Camera.new with far_clip := 0 }

/-- A trivial well-formed 1x1 map. -/
def tmZ : TerrainMap := ⟨(1, 1), List.replicate 4 0, List.replicate 4 0⟩

/-- A framebuffer of the standard 640*480*4 length, pre-filled with the
byte 7 (standing for an externally supplied clear color). -/
def frameZ : List ℕ := List.replicate (4 * (SCREEN_WIDTH * SCREEN_HEIGHT)) 7

/-- A camera near the map origin with far clip 2: each column marches one
depth step. -/
def camC7 : Camera := { Camera.new with position := ![2, 2, 0], far_clip := 2 }

/-- A flat 8x8 map: every color byte 9, every height byte 1. -/
def tmC7 : TerrainMap := ⟨(8, 8), List.replicate 256 9, List.replicate 256 1⟩

/-- A camera at (1, 3) with far clip 3: each column marches two depth steps. -/
def camC2 : Camera := { Camera.new with position := ![1, 3, 0], far_clip := 3 }

/-- Heights for the occlusion scenario: the sample one step out from (1,3)
down column 0 is at flat index 8 (height 2), the next at index 4 (height 1). -/
def heightC2 : List ℕ := ((List.replicate 64 0).set 8 2).set 4 1

/-- 4x4 occlusion-scenario map with constant color byte 3. -/
def tmC2 : TerrainMap := ⟨(4, 4), List.replicate 64 3, heightC2⟩

/-- A small well-formed 4x4 map (all bytes 0). -/
def tm4 : TerrainMap := ⟨(4, 4), List.replicate 64 0, List.replicate 64 0⟩

/-- A camera with a large negative x velocity. -/
def camNeg : Camera := { Camera.new with velocity := ![-100, 0, 0] }

/-- A decoded 1x1 color image. -/
def img1 : Image := ⟨1, 1, List.replicate 4 0, by decide⟩

/-- A decoded 2x1 height image (dimensions differ from img1). -/
def img2 : Image := ⟨2, 1, List.replicate 8 0, by decide⟩

/-- A decoded 1x1 height image matching the dimensions of img1. -/
def img3 : Image := ⟨1, 1, List.replicate 4 5, by decide⟩

/-- The default camera. -/
def camA : Camera := Camera.new

/-- A camera agreeing with camA on position x, y, far_clip and the motion
constants, with different rotation, z position and velocity. -/
def camB : Camera :=
  { Camera.new with rotation := ![1, 2], position := ![512, 512, 99], velocity := ![1, 1, 1] }

/-- Intermediate buffers whose bytes at index ≥ 3 mod SCREEN_WIDTH are
still at their cleared value 0. -/
def NfSideCols (nf : ℕ → ℕ) : Prop := ∀ j, 3 ≤ j % SCREEN_WIDTH → nf j = 0

/-- Intermediate buffers whose bytes at row indices ≥ SCREEN_HEIGHT are
still at their cleared value 0. -/
def NfHighRows (nf : ℕ → ℕ) : Prop := ∀ j, SCREEN_WIDTH * SCREEN_HEIGHT ≤ j → nf j = 0

/-- The uniform effect of one column on the flat map tmC7. -/
def paintF : (ℕ → ℕ) → (ℕ → ℕ) := fun nf => paintRows nf 9 9 9 1


/-- The computable Rat.floor agrees with the floor of the FloorRing on ℚ. -/
lemma ratFloor_eq_intFloor (q : ℚ) : q.floor = ⌊q⌋ := by
  rw [Rat.floor_def, Rat.floor_def']

/-- Folding bind over a list starting from none yields none. -/
lemma foldl_bind_none (g : ℕ → (ℕ → ℕ) → Option (ℕ → ℕ)) :
    ∀ l : List ℕ, l.foldl (fun acc x => acc.bind (g x)) none = none := by
  intro l
  induction l with
  | nil => rfl
  | cons x xs ih => simpa [List.foldl_cons] using ih

/-- If the first column already fails, the whole column fold fails. -/
lemma foldl_bind_first_none (g : ℕ → (ℕ → ℕ) → Option (ℕ → ℕ)) (l : List ℕ)
    (x : ℕ) (nf0 : ℕ → ℕ) (h : g x nf0 = none) :
    (x :: l).foldl (fun acc y => acc.bind (g y)) (some nf0) = none := by
  rw [List.foldl_cons]
  simpa [h] using foldl_bind_none g l

/-- If every column acts as the same function F on the buffer, the column
fold computes the iterate of F. -/
lemma foldl_bind_const (F : (ℕ → ℕ) → (ℕ → ℕ)) (g : ℕ → (ℕ → ℕ) → Option (ℕ → ℕ)) :
    ∀ l : List ℕ, (∀ x ∈ l, ∀ nf, g x nf = some (F nf)) →
      ∀ nf0, l.foldl (fun acc x => acc.bind (g x)) (some nf0) = some (F^[l.length] nf0) := by
  intro l
  induction l with
  | nil => intro _ nf0; rfl
  | cons x xs ih =>
      intro hg nf0
      rw [List.foldl_cons]
      have h1 : (some nf0).bind (g x) = some (F nf0) := by
        simp [hg x (by simp) nf0]
      rw [h1, ih (fun y hy nf => hg y (by simp [hy]) nf) (F nf0)]
      rw [List.length_cons, Function.iterate_succ_apply]

/-- A property of the buffer preserved by every column is preserved by the
column fold. -/
lemma foldl_bind_inv (P : (ℕ → ℕ) → Prop) (g : ℕ → (ℕ → ℕ) → Option (ℕ → ℕ))
    (hg : ∀ x nf nf', g x nf = some nf' → P nf → P nf') :
    ∀ (l : List ℕ) (acc : Option (ℕ → ℕ)) (nf' : ℕ → ℕ),
      l.foldl (fun acc x => acc.bind (g x)) acc = some nf' →
      (∀ nf, acc = some nf → P nf) → P nf' := by
  intro l
  induction l with
  | nil => intro acc nf' h hacc; exact hacc _ h
  | cons x xs ih =>
      intro acc nf' h hacc
      rw [List.foldl_cons] at h
      refine ih _ _ h ?_
      intro nf hbind
      cases acc with
      | none => simp at hbind
      | some nf0 => exact hg x nf0 nf (by simpa using hbind) (hacc nf0 rfl)

/-- Indexing a replicate within range. -/
lemma list_get?_replicate {α : Type} (a : α) (n i : ℕ) (h : i < n) :
    (List.replicate n a).get? i = some a := by
  rw [List.get?_eq_getElem?, List.getElem?_replicate, if_pos h]

/-- Compositing preserves the byte length of the frame. -/
lemma composite_length_fuel (nf : ℕ → ℕ) :
    ∀ (fuel : ℕ) (l : List ℕ) (i : ℕ), l.length ≤ fuel →
      (composite nf i l).length = l.length := by
  intro fuel
  induction fuel with
  | zero =>
      intro l i h
      have hl : l = [] := List.eq_nil_of_length_eq_zero (Nat.le_zero.mp h)
      subst hl; rfl
  | succ n ih =>
      intro l i h
      match l with
      | [] => rfl
      | [a] => rfl
      | [a, b] => rfl
      | [a, b, c] => rfl
      | a :: b :: c :: d :: t =>
          have hc : composite nf i (a :: b :: c :: d :: t)
              = nf i :: nf i :: nf i :: 255 :: composite nf (i + 1) t := rfl
          have ht : t.length ≤ n := by
            simp only [List.length_cons] at h; omega
          rw [hc]
          simp only [List.length_cons]
          rw [ih t (i + 1) ht]

/-- Compositing preserves the byte length of the frame. -/
lemma composite_length (nf : ℕ → ℕ) (l : List ℕ) (i : ℕ) :
    (composite nf i l).length = l.length :=
  composite_length_fuel nf l.length l i le_rfl

/-- The bytes of output pixel i: R = G = B = the intermediate-buffer byte at
the pixel's flat index, A = 255. -/
lemma composite_getElem (nf : ℕ → ℕ) :
    ∀ (i i₀ : ℕ) (l : List ℕ), 4 * (i + 1) ≤ l.length →
      (composite nf i₀ l).get? (4 * i) = some (nf (i₀ + i))
      ∧ (composite nf i₀ l).get? (4 * i + 1) = some (nf (i₀ + i))
      ∧ (composite nf i₀ l).get? (4 * i + 2) = some (nf (i₀ + i))
      ∧ (composite nf i₀ l).get? (4 * i + 3) = some 255 := by
  intro i
  induction i with
  | zero =>
      intro i₀ l h
      match l with
      | [] => simp only [List.length_nil] at h; omega
      | [a] => simp only [List.length_cons, List.length_nil] at h; omega
      | [a, b] => simp only [List.length_cons, List.length_nil] at h; omega
      | [a, b, c] => simp only [List.length_cons, List.length_nil] at h; omega
      | a :: b :: c :: d :: t =>
          have hc : composite nf i₀ (a :: b :: c :: d :: t)
              = nf i₀ :: nf i₀ :: nf i₀ :: 255 :: composite nf (i₀ + 1) t := rfl
          rw [hc]
          refine ⟨?_, ?_, ?_, ?_⟩
          · rw [show (4 * 0 : ℕ) = 0 from rfl, List.get?_cons_zero, Nat.add_zero]
          · rw [show (4 * 0 + 1 : ℕ) = 0 + 1 from rfl, List.get?_cons_succ,
              List.get?_cons_zero, Nat.add_zero]
          · rw [show (4 * 0 + 2 : ℕ) = 0 + 1 + 1 from rfl, List.get?_cons_succ,
              List.get?_cons_succ, List.get?_cons_zero, Nat.add_zero]
          · rw [show (4 * 0 + 3 : ℕ) = 0 + 1 + 1 + 1 from rfl, List.get?_cons_succ,
              List.get?_cons_succ, List.get?_cons_succ, List.get?_cons_zero]
  | succ i ih =>
      intro i₀ l h
      match l with
      | [] => simp only [List.length_nil] at h; omega
      | [a] => simp only [List.length_cons, List.length_nil] at h; omega
      | [a, b] => simp only [List.length_cons, List.length_nil] at h; omega
      | [a, b, c] => simp only [List.length_cons, List.length_nil] at h; omega
      | a :: b :: c :: d :: t =>
          have hc : composite nf i₀ (a :: b :: c :: d :: t)
              = nf i₀ :: nf i₀ :: nf i₀ :: 255 :: composite nf (i₀ + 1) t := rfl
          have ht : 4 * (i + 1) ≤ t.length := by
            simp only [List.length_cons] at h; omega
          obtain ⟨h0, h1, h2, h3⟩ := ih (i₀ + 1) t ht
          have hi : (i₀ + 1) + i = i₀ + (i + 1) := by omega
          rw [hi] at h0 h1 h2
          rw [hc]
          refine ⟨?_, ?_, ?_, ?_⟩
          · have e : 4 * (i + 1) = 4 * i + 1 + 1 + 1 + 1 := by ring
            rw [e]
            simp only [List.get?_cons_succ]
            exact h0
          · have e : 4 * (i + 1) + 1 = 4 * i + 1 + 1 + 1 + 1 + 1 := by ring
            rw [e]
            simp only [List.get?_cons_succ]
            exact h1
          · have e : 4 * (i + 1) + 2 = 4 * i + 2 + 1 + 1 + 1 + 1 := by ring
            rw [e]
            simp only [List.get?_cons_succ]
            exact h2
          · have e : 4 * (i + 1) + 3 = 4 * i + 3 + 1 + 1 + 1 + 1 := by ring
            rw [e]
            simp only [List.get?_cons_succ]
            exact h3

/-- max_projected_height never increases across one depth step. -/
lemma marchStep_maxH_le (tm : TerrainMap) (dP : ℚ × ℚ) (st st' : MarchState)
    (h : marchStep tm dP st = some st') : st'.maxH ≤ st.maxH := by
  simp only [marchStep] at h
  split at h
  · exact Option.noConfusion h
  · rename_i hb hh
    split at h
    · rename_i hlt
      split at h
      · split at h
        · injection h with h2
          subst h2
          exact le_of_lt hlt
        · exact Option.noConfusion h
      · injection h with h2
        subst h2
        exact le_of_lt hlt
    · injection h with h2
      subst h2
      exact le_rfl

/-- A step whose sampled height is below the running maximum sets
max_projected_height to that height. -/
lemma marchStep_painted (tm : TerrainMap) (dP : ℚ × ℚ) (st st' : MarchState) (hb : ℕ)
    (h : marchStep tm dP st = some st') (hh : stepHeight tm dP st = some hb)
    (hlt : hb < st.maxH) : st'.maxH = hb := by
  simp only [marchStep, hh] at h
  rw [if_pos hlt] at h
  split at h
  · split at h
    · injection h with h2; subst h2; rfl
    · exact Option.noConfusion h
  · injection h with h2; subst h2; rfl

/-- Splitting a march into two runs. -/
lemma marchN_add (tm : TerrainMap) (dP : ℚ × ℚ) :
    ∀ (m k : ℕ) (st : MarchState),
      marchN tm dP (m + k) st = (marchN tm dP m st).bind (marchN tm dP k) := by
  intro m
  induction m with
  | zero => intro k st; simp [marchN, Nat.zero_add]
  | succ m ih =>
      intro k st
      have e : m + 1 + k = (m + k) + 1 := by omega
      rw [e]
      cases hs : marchStep tm dP st with
      | none => simp [marchN, hs]
      | some st1 => simp [marchN, hs, ih]

/-- max_projected_height never increases over a march. -/
lemma marchN_maxH_le (tm : TerrainMap) (dP : ℚ × ℚ) :
    ∀ (k : ℕ) (st st' : MarchState),
      marchN tm dP k st = some st' → st'.maxH ≤ st.maxH := by
  intro k
  induction k with
  | zero =>
      intro st st' h
      simp only [marchN] at h
      injection h with h2
      subst h2
      exact le_rfl
  | succ k ih =>
      intro st st' h
      simp only [marchN] at h
      cases hs : marchStep tm dP st with
      | none => rw [hs] at h; exact Option.noConfusion h
      | some st1 =>
          rw [hs] at h
          simp only [Option.some_bind] at h
          exact le_trans (ih st1 st' h) (marchStep_maxH_le tm dP st st1 hs)

/-- A successful march has successful prefixes. -/
lemma marchN_some_of_le (tm : TerrainMap) (dP : ℚ × ℚ) (m n : ℕ) (hmn : m ≤ n)
    (st0 b : MarchState) (h : marchN tm dP n st0 = some b) :
    ∃ a, marchN tm dP m st0 = some a := by
  have e : m + (n - m) = n := by omega
  rw [← e, marchN_add] at h
  cases ha : marchN tm dP m st0 with
  | none => rw [ha] at h; simp at h
  | some a => exact ⟨a, rfl⟩

/-- The paint loop only writes bytes at index 0, 1 or 2 modulo SCREEN_WIDTH
(the pixel_index = SCREEN_WIDTH * screen_y + channel never includes a column
term). -/
lemma paintRows_apply_of_mod (nf : ℕ → ℕ) (cR cG cB : ℕ) :
    ∀ (h j : ℕ), 3 ≤ j % SCREEN_WIDTH → paintRows nf cR cG cB h j = nf j := by
  intro h
  induction h with
  | zero => intro j _; rfl
  | succ y ih =>
      intro j hj
      have hj640 : 3 ≤ j % 640 := hj
      have h2 : j ≠ SCREEN_WIDTH * y + 2 := by
        intro he
        simp only [SCREEN_WIDTH] at he
        subst he
        omega
      have h1 : j ≠ SCREEN_WIDTH * y + 1 := by
        intro he
        simp only [SCREEN_WIDTH] at he
        subst he
        omega
      have h0 : j ≠ SCREEN_WIDTH * y + 0 := by
        intro he
        simp only [SCREEN_WIDTH] at he
        subst he
        omega
      simp only [paintRows, writeByte]
      rw [if_neg h2, if_neg h1, if_neg h0]
      exact ih j hj

/-- The paint loop for h rows only writes bytes below index SCREEN_WIDTH * h. -/
lemma paintRows_apply_of_ge (nf : ℕ → ℕ) (cR cG cB : ℕ) :
    ∀ (h j : ℕ), SCREEN_WIDTH * h ≤ j → paintRows nf cR cG cB h j = nf j := by
  intro h
  induction h with
  | zero => intro j _; rfl
  | succ y ih =>
      intro j hj
      have hj640 : 640 * (y + 1) ≤ j := hj
      have h2 : j ≠ SCREEN_WIDTH * y + 2 := by
        intro he
        simp only [SCREEN_WIDTH] at he
        subst he
        omega
      have h1 : j ≠ SCREEN_WIDTH * y + 1 := by
        intro he
        simp only [SCREEN_WIDTH] at he
        subst he
        omega
      have h0 : j ≠ SCREEN_WIDTH * y + 0 := by
        intro he
        simp only [SCREEN_WIDTH] at he
        subst he
        omega
      simp only [paintRows, writeByte]
      rw [if_neg h2, if_neg h1, if_neg h0]
      refine ih j ?_
      have : (640 : ℕ) * y ≤ j := by omega
      simpa [SCREEN_WIDTH] using this

/-- One depth step never writes a byte at index ≥ 3 mod SCREEN_WIDTH. -/
lemma marchStep_nfSideCols (tm : TerrainMap) (dP : ℚ × ℚ) (st st' : MarchState)
    (h : marchStep tm dP st = some st') (hst : NfSideCols st.nf) : NfSideCols st'.nf := by
  simp only [marchStep] at h
  split at h
  · exact Option.noConfusion h
  · split at h
    · split at h
      · split at h
        · injection h with h2
          subst h2
          intro j hj
          exact (paintRows_apply_of_mod st.nf _ _ _ _ j hj).trans (hst j hj)
        · exact Option.noConfusion h
      · injection h with h2; subst h2; exact hst
    · injection h with h2; subst h2; exact hst

/-- One depth step keeps max_projected_height at most SCREEN_HEIGHT and
never writes a byte at or above row SCREEN_HEIGHT. -/
lemma marchStep_nfHighRows (tm : TerrainMap) (dP : ℚ × ℚ) (st st' : MarchState)
    (h : marchStep tm dP st = some st') (hmax : st.maxH ≤ SCREEN_HEIGHT)
    (hst : NfHighRows st.nf) : st'.maxH ≤ SCREEN_HEIGHT ∧ NfHighRows st'.nf := by
  simp only [marchStep] at h
  split at h
  · exact Option.noConfusion h
  · rename_i hb hh
    split at h
    · rename_i hlt
      split at h
      · split at h
        · injection h with h2
          subst h2
          refine ⟨le_trans (le_of_lt hlt) hmax, ?_⟩
          intro j hj
          have hhb : SCREEN_WIDTH * hb ≤ j := by
            refine le_trans ?_ hj
            exact Nat.mul_le_mul_left SCREEN_WIDTH (le_trans (le_of_lt hlt) hmax)
          exact (paintRows_apply_of_ge st.nf _ _ _ _ j hhb).trans (hst j hj)
        · exact Option.noConfusion h
      · injection h with h2
        subst h2
        exact ⟨le_trans (le_of_lt hlt) hmax, hst⟩
    · injection h with h2
      subst h2
      exact ⟨hmax, hst⟩

/-- A march never writes a byte at index ≥ 3 mod SCREEN_WIDTH. -/
lemma marchN_nfSideCols (tm : TerrainMap) (dP : ℚ × ℚ) :
    ∀ (k : ℕ) (st st' : MarchState),
      marchN tm dP k st = some st' → NfSideCols st.nf → NfSideCols st'.nf := by
  intro k
  induction k with
  | zero =>
      intro st st' h hst
      simp only [marchN] at h
      injection h with h2
      subst h2
      exact hst
  | succ k ih =>
      intro st st' h hst
      simp only [marchN] at h
      cases hs : marchStep tm dP st with
      | none => rw [hs] at h; exact Option.noConfusion h
      | some st1 =>
          rw [hs] at h
          simp only [Option.some_bind] at h
          exact ih st1 st' h (marchStep_nfSideCols tm dP st st1 hs hst)

/-- A march started below SCREEN_HEIGHT never writes a byte at or above row
SCREEN_HEIGHT. -/
lemma marchN_nfHighRows (tm : TerrainMap) (dP : ℚ × ℚ) :
    ∀ (k : ℕ) (st st' : MarchState),
      marchN tm dP k st = some st' → st.maxH ≤ SCREEN_HEIGHT → NfHighRows st.nf →
      st'.maxH ≤ SCREEN_HEIGHT ∧ NfHighRows st'.nf := by
  intro k
  induction k with
  | zero =>
      intro st st' h hmax hst
      simp only [marchN] at h
      injection h with h2
      subst h2
      exact ⟨hmax, hst⟩
  | succ k ih =>
      intro st st' h hmax hst
      simp only [marchN] at h
      cases hs : marchStep tm dP st with
      | none => rw [hs] at h; exact Option.noConfusion h
      | some st1 =>
          rw [hs] at h
          simp only [Option.some_bind] at h
          obtain ⟨hmax1, hst1⟩ := marchStep_nfHighRows tm dP st st1 hs hmax hst
          exact ih st1 st' h hmax1 hst1

/-- One rendered column never writes a byte at index ≥ 3 mod SCREEN_WIDTH. -/
lemma columnMarch_nfSideCols (tm : TerrainMap) (px py fc : ℚ) (x : ℕ)
    (nf nf' : ℕ → ℕ) (h : columnMarch tm px py fc x nf = some nf')
    (hnf : NfSideCols nf) : NfSideCols nf' := by
  simp only [columnMarch] at h
  cases hm : marchN tm (columnDelta fc x) (f32ToUsize fc - 1) (columnInit px py nf) with
  | none => rw [hm] at h; exact Option.noConfusion h
  | some stf =>
      rw [hm] at h
      injection h with h2
      subst h2
      exact marchN_nfSideCols tm _ _ _ _ hm hnf

/-- One rendered column never writes a byte at or above row SCREEN_HEIGHT. -/
lemma columnMarch_nfHighRows (tm : TerrainMap) (px py fc : ℚ) (x : ℕ)
    (nf nf' : ℕ → ℕ) (h : columnMarch tm px py fc x nf = some nf')
    (hnf : NfHighRows nf) : NfHighRows nf' := by
  simp only [columnMarch] at h
  cases hm : marchN tm (columnDelta fc x) (f32ToUsize fc - 1) (columnInit px py nf) with
  | none => rw [hm] at h; exact Option.noConfusion h
  | some stf =>
      rw [hm] at h
      injection h with h2
      subst h2
      exact (marchN_nfHighRows tm _ _ _ _ hm le_rfl hnf).2

/-- The whole ray-march never writes a byte at index ≥ 3 mod SCREEN_WIDTH:
a successful render leaves every such byte at its cleared value 0. -/
lemma renderNF_nfSideCols (tm : TerrainMap) (px py fc : ℚ) (nf : ℕ → ℕ)
    (h : renderNF tm px py fc = some nf) : NfSideCols nf := by
  refine foldl_bind_inv NfSideCols (fun x => columnMarch tm px py fc x)
    (fun x nf0 nf1 hx h0 => columnMarch_nfSideCols tm px py fc x nf0 nf1 hx h0)
    (List.range SCREEN_WIDTH) (some (fun _ => 0)) nf h ?_
  intro nf0 h0
  injection h0 with h1
  subst h1
  intro j _
  rfl

/-- The whole ray-march never writes a byte at or above row SCREEN_HEIGHT. -/
lemma renderNF_nfHighRows (tm : TerrainMap) (px py fc : ℚ) (nf : ℕ → ℕ)
    (h : renderNF tm px py fc = some nf) : NfHighRows nf := by
  refine foldl_bind_inv NfHighRows (fun x => columnMarch tm px py fc x)
    (fun x nf0 nf1 hx h0 => columnMarch_nfHighRows tm px py fc x nf0 nf1 hx h0)
    (List.range SCREEN_WIDTH) (some (fun _ => 0)) nf h ?_
  intro nf0 h0
  injection h0 with h1
  subst h1
  intro j _
  rfl

lemma f32ToUsize_lt (q : ℚ) (n : ℕ) (hq : q < (n : ℚ)) (hn : 0 < n) : f32ToUsize q < n := by
  have h1 : ⌊q⌋ < (n : ℤ) := by
    rw [Int.floor_lt]
    exact_mod_cast hq
  rw [← ratFloor_eq_intFloor] at h1
  have h3 : (max q.floor 0).toNat < n := by omega
  exact lt_of_le_of_lt (Nat.min_le_left _ _) h3

lemma f32ToUsize_neg (q : ℚ) (hq : q < 0) : f32ToUsize q = 0 := by
  have h1 : ⌊q⌋ < (0 : ℤ) := by
    rw [Int.floor_lt]
    exact_mod_cast hq
  rw [← ratFloor_eq_intFloor] at h1
  have h2 : (max q.floor 0).toNat = 0 := by omega
  rw [f32ToUsize, h2]
  exact Nat.zero_min _

lemma f32ToUsize_eq (q : ℚ) (m : ℕ) (h1 : ⌊q⌋ = (m : ℤ)) (h2 : m < 2 ^ 64) :
    f32ToUsize q = m := by
  rw [f32ToUsize, ratFloor_eq_intFloor, h1]
  have h3 : ((m : ℤ) ⊔ 0).toNat = m := by omega
  rw [h3]
  have h4 : (2 : ℕ) ^ 64 = 18446744073709551616 := by norm_num
  omega

lemma columnDelta_400_0 : columnDelta 400 0 = (-1, 1) := by
  simp only [columnDelta, leftFar, rightFar, SCREEN_WIDTH, Prod.mk.injEq]
  norm_num

lemma stepHeight_new_tm4 (nf : ℕ → ℕ) :
    stepHeight tm4 (columnDelta 400 0) (columnInit 512 512 nf) = none := by
  rw [stepHeight, columnDelta_400_0]
  have e1 : (columnInit (512 : ℚ) 512 nf).rayX + ((-1 : ℚ), (1 : ℚ)).1 = 511 := by
    simp [columnInit]
    norm_num
  have e2 : (columnInit (512 : ℚ) 512 nf).rayY - ((-1 : ℚ), (1 : ℚ)).2 = 511 := by
    simp [columnInit]
    norm_num
  rw [e1, e2]
  have hoff : mapOffset tm4 511 511 = 2555 := by
    rw [mapOffset, f32ToUsize_eq 511 511 (by norm_num) (by norm_num)]
    rfl
  rw [hoff]
  show (List.replicate 64 0).get? 2555 = none
  rfl

lemma columnMarch_new_tm4 (nf : ℕ → ℕ) : columnMarch tm4 512 512 400 0 nf = none := by
  rw [columnMarch]
  have hc : f32ToUsize 400 - 1 = 399 := by
    rw [f32ToUsize_eq 400 400 (by norm_num) (by norm_num)]
  rw [hc, show (399 : ℕ) = 398 + 1 from rfl]
  have hstep : marchStep tm4 (columnDelta 400 0) (columnInit 512 512 nf) = none := by
    rw [marchStep, stepHeight_new_tm4]
  rw [marchN, hstep]
  rfl

lemma drawNF_new_tm4 : Camera.new.drawNF tm4 = none := by
  rw [Camera.drawNF]
  have h0 : Camera.new.position 0 = 512 := rfl
  have h1 : Camera.new.position 1 = 512 := rfl
  have h2 : Camera.new.far_clip = 400 := rfl
  rw [h0, h1, h2, renderNF]
  rw [show (SCREEN_WIDTH : ℕ) = 639 + 1 from rfl, List.range_succ_eq_map]
  exact foldl_bind_first_none _ _ _ _ (columnMarch_new_tm4 _)

lemma columnMarch_farclip0 (tm : TerrainMap) (px py : ℚ) (x : ℕ) (nf : ℕ → ℕ) :
    columnMarch tm px py 0 x nf = some nf := rfl

lemma renderNF_farclip0 (tm : TerrainMap) (px py : ℚ) :
    renderNF tm px py 0 = some (fun _ => 0) := by
  rw [renderNF]
  have h := foldl_bind_const id (fun x => columnMarch tm px py 0 x) (List.range SCREEN_WIDTH)
    (fun x _ nf => columnMarch_farclip0 tm px py x nf) (fun _ => 0)
  rw [h, Function.iterate_id]
  rfl

lemma drawNF_camZ (tm : TerrainMap) : camZ.drawNF tm = some (fun _ => 0) := by
  rw [Camera.drawNF]
  have h2 : camZ.far_clip = 0 := rfl
  rw [h2, renderNF_farclip0]

lemma marchStep_paint_eq (tm : TerrainMap) (dP : ℚ × ℚ) (st : MarchState)
    (hb cR cG cB : ℕ)
    (hh : stepHeight tm dP st = some hb) (hlt : hb < st.maxH) (hpos : 0 < hb)
    (h0 : tm.color_map.get? (mapOffset tm (st.rayX + dP.1) (st.rayY - dP.2) + 0) = some cR)
    (h1 : tm.color_map.get? (mapOffset tm (st.rayX + dP.1) (st.rayY - dP.2) + 1) = some cG)
    (h2 : tm.color_map.get? (mapOffset tm (st.rayX + dP.1) (st.rayY - dP.2) + 2) = some cB) :
    marchStep tm dP st
      = some ⟨st.rayX + dP.1, st.rayY - dP.2, hb, paintRows st.nf cR cG cB hb⟩ := by
  simp only [marchStep, hh, h0, h1, h2]
  rw [if_pos hlt, if_pos hpos]

lemma columnDelta_fst_two (x : ℕ) : (columnDelta 2 x).1 = ((x : ℚ) - 320) / 320 := by
  simp only [columnDelta, leftFar, rightFar, SCREEN_WIDTH]
  push_cast
  ring_nf

lemma columnDelta_snd (fc : ℚ) (hfc : fc ≠ 0) (x : ℕ) : (columnDelta fc x).2 = 1 := by
  simp [columnDelta, leftFar, rightFar]
  field_simp

lemma columnMarch_flat (x : ℕ) (hx : x < SCREEN_WIDTH) (nf : ℕ → ℕ) :
    columnMarch tmC7 2 2 2 x nf = some (paintF nf) := by
  have hx640 : x < 640 := hx
  have hdy : (columnDelta 2 x).2 = 1 := columnDelta_snd 2 (by norm_num) x
  have hdx : (columnDelta 2 x).1 = ((x : ℚ) - 320) / 320 := columnDelta_fst_two x
  have hrx_eq : (2 : ℚ) + (columnDelta 2 x).1 = 1 + (x : ℚ) / 320 := by
    rw [hdx]; ring
  have hxq : (0 : ℚ) ≤ (x : ℚ) := Nat.cast_nonneg x
  have hxlt : (x : ℚ) < 640 := by exact_mod_cast hx640
  have hrx_lt : (2 : ℚ) + (columnDelta 2 x).1 < 3 := by
    rw [hrx_eq]
    have hd : (x : ℚ) / 320 < 2 := by
      rw [div_lt_iff₀ (by norm_num : (0:ℚ) < 320)]
      linarith
    linarith
  have hfx : f32ToUsize ((2 : ℚ) + (columnDelta 2 x).1) < 3 := by
    refine f32ToUsize_lt _ 3 ?_ (by norm_num)
    push_cast
    exact hrx_lt
  have hry : (2 : ℚ) - (columnDelta 2 x).2 = 1 := by rw [hdy]; norm_num
  have hfy : f32ToUsize ((2 : ℚ) - (columnDelta 2 x).2) = 1 := by
    rw [hry, f32ToUsize_eq 1 1 (by norm_num) (by norm_num)]
  have hoff : mapOffset tmC7 ((2 : ℚ) + (columnDelta 2 x).1) ((2 : ℚ) - (columnDelta 2 x).2) ≤ 10 := by
    rw [mapOffset, hfy]
    have h8 : tmC7.map_dimensions.1 = 8 := rfl
    rw [h8]
    omega
  have hh : stepHeight tmC7 (columnDelta 2 x) (columnInit 2 2 nf) = some 1 := by
    show tmC7.height_map.get? (mapOffset tmC7 ((2:ℚ) + (columnDelta 2 x).1) ((2:ℚ) - (columnDelta 2 x).2)) = some 1
    have hrep : tmC7.height_map = List.replicate 256 1 := rfl
    rw [hrep, list_get?_replicate 1 256 _ (by omega)]
  have hc0 : tmC7.color_map.get? (mapOffset tmC7 ((2:ℚ) + (columnDelta 2 x).1) ((2:ℚ) - (columnDelta 2 x).2) + 0) = some 9 := by
    have hrep : tmC7.color_map = List.replicate 256 9 := rfl
    rw [hrep, list_get?_replicate 9 256 _ (by omega)]
  have hc1 : tmC7.color_map.get? (mapOffset tmC7 ((2:ℚ) + (columnDelta 2 x).1) ((2:ℚ) - (columnDelta 2 x).2) + 1) = some 9 := by
    have hrep : tmC7.color_map = List.replicate 256 9 := rfl
    rw [hrep, list_get?_replicate 9 256 _ (by omega)]
  have hc2 : tmC7.color_map.get? (mapOffset tmC7 ((2:ℚ) + (columnDelta 2 x).1) ((2:ℚ) - (columnDelta 2 x).2) + 2) = some 9 := by
    have hrep : tmC7.color_map = List.replicate 256 9 := rfl
    rw [hrep, list_get?_replicate 9 256 _ (by omega)]
  have hstep := marchStep_paint_eq tmC7 (columnDelta 2 x) (columnInit 2 2 nf) 1 9 9 9
    hh (by show (1:ℕ) < SCREEN_HEIGHT; decide) (by decide) hc0 hc1 hc2
  rw [columnMarch,
    show f32ToUsize (2:ℚ) - 1 = 0 + 1 from by rw [f32ToUsize_eq 2 2 (by norm_num) (by norm_num)],
    marchN, hstep]
  simp only [Option.some_bind]
  rw [marchN]
  rfl

lemma renderNF_flat : renderNF tmC7 2 2 2 = some (paintF^[SCREEN_WIDTH] (fun _ => 0)) := by
  rw [renderNF]
  have h := foldl_bind_const paintF (fun x => columnMarch tmC7 2 2 2 x) (List.range SCREEN_WIDTH)
    (fun x hx nf => columnMarch_flat x (List.mem_range.mp hx) nf) (fun _ => 0)
  rw [h, List.length_range]

lemma drawNF_flat : camC7.drawNF tmC7 = some (paintF^[SCREEN_WIDTH] (fun _ => 0)) := by
  rw [Camera.drawNF]
  have h0 : camC7.position 0 = 2 := rfl
  have h1 : camC7.position 1 = 2 := rfl
  have h2 : camC7.far_clip = 2 := rfl
  rw [h0, h1, h2, renderNF_flat]

lemma draw_flat (frame : List ℕ) :
    camC7.draw frame tmC7 = some (composite (paintF^[SCREEN_WIDTH] (fun _ => 0)) 0 frame) := by
  rw [Camera.draw, drawNF_flat]
  rfl

lemma paintF_apply (nf : ℕ → ℕ) : paintF nf = writeByte (writeByte (writeByte nf 0 9) 1 9) 2 9 := rfl

lemma paintF_iterate_zero (n : ℕ) (hn : 1 ≤ n) (nf : ℕ → ℕ) : paintF^[n] nf 0 = 9 := by
  obtain ⟨m, rfl⟩ : ∃ m, n = m + 1 := ⟨n - 1, by omega⟩
  rw [Function.iterate_succ_apply']
  rfl

lemma paintF_iterate_ge3 (n j : ℕ) (hj : 3 ≤ j) (nf : ℕ → ℕ) : paintF^[n] nf j = nf j := by
  induction n with
  | zero => rfl
  | succ m ih =>
      rw [Function.iterate_succ_apply', paintF_apply]
      simp only [writeByte]
      rw [if_neg (by omega), if_neg (by omega), if_neg (by omega)]
      exact ih

lemma columnDelta_camC2 : columnDelta camC2.far_clip 0 = (-1, 1) := by
  have h : camC2.far_clip = 3 := rfl
  rw [h]
  simp only [columnDelta, leftFar, rightFar, SCREEN_WIDTH, Prod.mk.injEq]
  norm_num

lemma marchC2_s0 : marchN tmC2 (columnDelta camC2.far_clip 0) 0
    (columnInit (camC2.position 0) (camC2.position 1) (fun _ => 0))
    = some ⟨1, 3, 480, fun _ => 0⟩ := rfl

lemma mapOffsetC2_s0 :
    mapOffset tmC2 ((⟨1, 3, 480, fun _ => (0:ℕ)⟩ : MarchState).rayX + (columnDelta camC2.far_clip 0).1)
      ((⟨1, 3, 480, fun _ => (0:ℕ)⟩ : MarchState).rayY - (columnDelta camC2.far_clip 0).2) = 8 := by
  rw [columnDelta_camC2]
  dsimp only
  rw [show (1:ℚ) + -1 = 0 from by norm_num, show (3:ℚ) - 1 = 2 from by norm_num]
  rw [mapOffset, f32ToUsize_eq 2 2 (by norm_num) (by norm_num),
    f32ToUsize_eq 0 0 (by norm_num) (by norm_num)]
  rfl

lemma stepHeightC2_s0 :
    stepHeight tmC2 (columnDelta camC2.far_clip 0) ⟨1, 3, 480, fun _ => 0⟩ = some 2 := by
  rw [stepHeight, mapOffsetC2_s0]
  rfl

lemma colorC2_s0_0 :
    tmC2.color_map.get? (mapOffset tmC2 ((⟨1, 3, 480, fun _ => (0:ℕ)⟩ : MarchState).rayX + (columnDelta camC2.far_clip 0).1)
      ((⟨1, 3, 480, fun _ => (0:ℕ)⟩ : MarchState).rayY - (columnDelta camC2.far_clip 0).2) + 0) = some 3 := by
  rw [mapOffsetC2_s0]
  rfl

lemma colorC2_s0_1 :
    tmC2.color_map.get? (mapOffset tmC2 ((⟨1, 3, 480, fun _ => (0:ℕ)⟩ : MarchState).rayX + (columnDelta camC2.far_clip 0).1)
      ((⟨1, 3, 480, fun _ => (0:ℕ)⟩ : MarchState).rayY - (columnDelta camC2.far_clip 0).2) + 1) = some 3 := by
  rw [mapOffsetC2_s0]
  rfl

lemma colorC2_s0_2 :
    tmC2.color_map.get? (mapOffset tmC2 ((⟨1, 3, 480, fun _ => (0:ℕ)⟩ : MarchState).rayX + (columnDelta camC2.far_clip 0).1)
      ((⟨1, 3, 480, fun _ => (0:ℕ)⟩ : MarchState).rayY - (columnDelta camC2.far_clip 0).2) + 2) = some 3 := by
  rw [mapOffsetC2_s0]
  rfl

lemma marchC2_s1 : marchN tmC2 (columnDelta camC2.far_clip 0) 1
    (columnInit (camC2.position 0) (camC2.position 1) (fun _ => 0))
    = some ⟨0, 2, 2, paintRows (fun _ => 0) 3 3 3 2⟩ := by
  rw [show (1:ℕ) = 0 + 1 from rfl, marchN]
  have hst : marchStep tmC2 (columnDelta camC2.far_clip 0)
      (columnInit (camC2.position 0) (camC2.position 1) (fun _ => 0))
      = some ⟨0, 2, 2, paintRows (fun _ => 0) 3 3 3 2⟩ := by
    rw [show columnInit (camC2.position 0) (camC2.position 1) (fun _ => (0:ℕ))
        = (⟨1, 3, 480, fun _ => 0⟩ : MarchState) from rfl]
    rw [marchStep_paint_eq tmC2 (columnDelta camC2.far_clip 0) ⟨1, 3, 480, fun _ => 0⟩ 2 3 3 3
      stepHeightC2_s0 (by decide) (by decide) colorC2_s0_0 colorC2_s0_1 colorC2_s0_2]
    rw [columnDelta_camC2]
    dsimp only
    simp only [Option.some.injEq, MarchState.mk.injEq]
    norm_num
  rw [hst]
  simp only [Option.some_bind]
  rw [marchN]

lemma mapOffsetC2_s1 :
    mapOffset tmC2 ((⟨0, 2, 2, paintRows (fun _ => (0:ℕ)) 3 3 3 2⟩ : MarchState).rayX + (columnDelta camC2.far_clip 0).1)
      ((⟨0, 2, 2, paintRows (fun _ => (0:ℕ)) 3 3 3 2⟩ : MarchState).rayY - (columnDelta camC2.far_clip 0).2) = 4 := by
  rw [columnDelta_camC2]
  dsimp only
  rw [show (0:ℚ) + -1 = -1 from by norm_num, show (2:ℚ) - 1 = 1 from by norm_num]
  rw [mapOffset, f32ToUsize_eq 1 1 (by norm_num) (by norm_num),
    f32ToUsize_neg (-1) (by norm_num)]
  rfl

lemma stepHeightC2_s1 :
    stepHeight tmC2 (columnDelta camC2.far_clip 0) ⟨0, 2, 2, paintRows (fun _ => 0) 3 3 3 2⟩ = some 1 := by
  rw [stepHeight, mapOffsetC2_s1]
  rfl

lemma heldTick_max_speed (c : Camera) : (heldTick c).max_speed = c.max_speed := rfl

lemma heldTick_acceleration (c : Camera) : (heldTick c).acceleration = c.acceleration := rfl

lemma held_max_speed (n : ℕ) : (held n).max_speed = 5 := by
  induction n with
  | zero => rfl
  | succ m ih => exact (heldTick_max_speed (held m)).trans ih

lemma held_acceleration (n : ℕ) : (held n).acceleration = 1 / 4 := by
  induction n with
  | zero => rfl
  | succ m ih => exact (heldTick_acceleration (held m)).trans ih

lemma held_velocity (n : ℕ) : (held n).velocity 0 = 9 / 4 * (1 - (9 / 10 : ℚ) ^ n) := by
  induction n with
  | zero =>
      have h0 : (held 0).velocity 0 = 0 := rfl
      rw [h0]
      norm_num
  | succ m ih =>
      have hq0 : (0 : ℚ) < (9 / 10 : ℚ) ^ m := pow_pos (by norm_num) m
      have hq1 : ((9 / 10 : ℚ)) ^ m ≤ 1 := pow_le_one₀ (by norm_num) (by norm_num)
      have hv : (held (m + 1)).velocity 0
          = clampDamp (held m).max_speed ((held m).velocity 0 + (held m).acceleration) := by
        show (heldTick (held m)).velocity 0 = _
        simp [heldTick, Camera.update]
      rw [hv, held_max_speed, held_acceleration, ih, clampDamp]
      have hcond : ¬ (9 / 4 * (1 - (9 / 10 : ℚ) ^ m) + 1 / 4 > 5) := by
        rw [not_lt]
        nlinarith
      rw [if_neg hcond, pow_succ]
      ring

lemma held_velocity_le (n : ℕ) : (held n).velocity 0 ≤ 9 / 4 := by
  rw [held_velocity]
  have hq0 : (0 : ℚ) < (9 / 10 : ℚ) ^ n := pow_pos (by norm_num) n
  nlinarith

lemma held_tendsto (ε : ℚ) (hε : 0 < ε) :
    ∃ N, ∀ n, N ≤ n → |(held n).velocity 0 - 9 / 4| < ε := by
  obtain ⟨N, hN⟩ := exists_pow_lt_of_lt_one (show (0 : ℚ) < 4 / 9 * ε by positivity)
    (show (9 / 10 : ℚ) < 1 by norm_num)
  refine ⟨N, fun n hn => ?_⟩
  rw [held_velocity]
  have hq0 : (0 : ℚ) < (9 / 10 : ℚ) ^ n := pow_pos (by norm_num) n
  have hmono : ((9 / 10 : ℚ)) ^ n ≤ (9 / 10) ^ N :=
    pow_le_pow_of_le_one (by norm_num) (by norm_num) hn
  have habs : |9 / 4 * (1 - (9 / 10 : ℚ) ^ n) - 9 / 4| = 9 / 4 * (9 / 10) ^ n := by
    rw [abs_of_nonpos (by nlinarith)]
    ring
  rw [habs]
  calc (9 / 4 : ℚ) * (9 / 10) ^ n ≤ 9 / 4 * (9 / 10) ^ N := by nlinarith
    _ < 9 / 4 * (4 / 9 * ε) := by nlinarith [hN]
    _ = ε := by ring

lemma clampDamp_le (ms v : ℚ) (hms : 0 ≤ ms) : clampDamp ms v ≤ ms := by
  rw [clampDamp]
  rcases le_or_lt v ms with h | h
  · rw [if_neg (not_lt.mpr h)]
    rcases le_or_lt v 0 with h0 | h0
    · nlinarith
    · nlinarith
  · rw [if_pos h]
    nlinarith

lemma tm4_wf : tm4.WF := by
  refine ⟨by decide, by decide, by decide, by decide, ?_, ?_⟩ <;>
    · intro b hb
      simp only [tm4, List.mem_replicate] at hb
      omega

lemma neg3_lt_tm4_width : (-3 : ℚ) < (tm4.map_dimensions.1 : ℚ) := by
  norm_num [tm4]

lemma neg1_lt_tm4_height : (-1 : ℚ) < (tm4.map_dimensions.2 : ℚ) := by
  norm_num [tm4]

/-- Claim C1 (code bug): the paint loop computes
pixel_index = SCREEN_WIDTH * screen_y without adding screen_x, so painting
never reaches any screen column other than bytes 0, 1, 2 of each row of the
intermediate buffer.  On a flat map (every height byte 1, every color byte
9) the output pixel (0,0) is painted 9 while pixel (5,0) — byte index
4 * 5 — stays at the cleared value 0, although the claim says every column
of a flat map is rendered identically; in general, every intermediate-buffer
byte at index ≥ 3 mod SCREEN_WIDTH is left 0 by any successful render. -/
theorem claim1_paint_misses_columns :
    ((camC7.draw frameZ tmC7).bind (fun out => out.get? (4 * 5)) = some 0)
    ∧ ((camC7.draw frameZ tmC7).bind (fun out => out.get? (4 * 0)) = some 9)
    ∧ (∀ (c : Camera) (tm : TerrainMap) (nf : ℕ → ℕ) (j : ℕ),
        c.drawNF tm = some nf → 3 ≤ j % SCREEN_WIDTH → nf j = 0) := by
  refine ⟨?_, ?_, ?_⟩
  · rw [draw_flat frameZ]
    simp only [Option.some_bind]
    have hlen : 4 * (5 + 1) ≤ frameZ.length := by
      rw [frameZ, List.length_replicate]
      decide
    rw [(composite_getElem (paintF^[SCREEN_WIDTH] (fun _ => 0)) 5 0 frameZ hlen).1,
      Nat.zero_add, paintF_iterate_ge3 SCREEN_WIDTH 5 (by omega) _]
  · rw [draw_flat frameZ]
    simp only [Option.some_bind]
    have hlen : 4 * (0 + 1) ≤ frameZ.length := by
      rw [frameZ, List.length_replicate]
      decide
    rw [(composite_getElem (paintF^[SCREEN_WIDTH] (fun _ => 0)) 0 0 frameZ hlen).1,
      Nat.zero_add, paintF_iterate_zero SCREEN_WIDTH (by decide) _]
  · intro c tm nf j h hj
    rw [Camera.drawNF] at h
    exact renderNF_nfSideCols _ _ _ _ _ h j hj

/-- Claim C2: within one column's ray march, max_projected_height starts at
SCREEN_HEIGHT and never increases, and a farther sample that paints has a
height value strictly smaller than that of any earlier painting sample. -/
theorem claim2_occlusion (c : Camera) (tm : TerrainMap) (x : ℕ) (nf0 : ℕ → ℕ) :
    (columnInit (c.position 0) (c.position 1) nf0).maxH = SCREEN_HEIGHT
    ∧ (∀ (m n : ℕ) (a b : MarchState), m ≤ n →
        marchN tm (columnDelta c.far_clip x) m (columnInit (c.position 0) (c.position 1) nf0) = some a →
        marchN tm (columnDelta c.far_clip x) n (columnInit (c.position 0) (c.position 1) nf0) = some b →
        b.maxH ≤ a.maxH)
    ∧ (∀ (m n : ℕ) (a b : MarchState) (h h' : ℕ), m < n →
        marchN tm (columnDelta c.far_clip x) m (columnInit (c.position 0) (c.position 1) nf0) = some a →
        stepHeight tm (columnDelta c.far_clip x) a = some h → h < a.maxH →
        marchN tm (columnDelta c.far_clip x) n (columnInit (c.position 0) (c.position 1) nf0) = some b →
        stepHeight tm (columnDelta c.far_clip x) b = some h' → h' < b.maxH →
        h' < h) := by
  refine ⟨rfl, ?_, ?_⟩
  · intro m n a b hmn ha hb
    have e : m + (n - m) = n := by omega
    rw [← e, marchN_add, ha] at hb
    simp only [Option.some_bind] at hb
    exact marchN_maxH_le tm _ (n - m) a b hb
  · intro m n a b h h' hmn ha hha hlta hb hhb hltb
    have e : m + (n - m) = n := by omega
    rw [← e, marchN_add, ha] at hb
    simp only [Option.some_bind] at hb
    obtain ⟨k, hk⟩ : ∃ k, n - m = k + 1 := ⟨n - m - 1, by omega⟩
    rw [hk] at hb
    simp only [marchN] at hb
    cases hs : marchStep tm (columnDelta c.far_clip x) a with
    | none => rw [hs] at hb; simp at hb
    | some c1 =>
        rw [hs] at hb
        simp only [Option.some_bind] at hb
        have hc1 : c1.maxH = h := marchStep_painted _ _ _ _ _ hs hha hlta
        have hbc : b.maxH ≤ c1.maxH := marchN_maxH_le _ _ _ _ _ hb
        omega

/-- Witness for claim C2 on the concrete 4x4 occlusion map: the march for
column 0 paints height 2 at depth 1 and height 1 at depth 2. -/
theorem claim2_witness :
    (columnInit (camC2.position 0) (camC2.position 1) (fun _ => (0:ℕ))).maxH = SCREEN_HEIGHT
    ∧ ((⟨0, 2, 2, paintRows (fun _ => (0:ℕ)) 3 3 3 2⟩ : MarchState)).maxH
        ≤ ((⟨1, 3, 480, fun _ => (0:ℕ)⟩ : MarchState)).maxH
    ∧ (1 : ℕ) < 2 := by
  refine ⟨(claim2_occlusion camC2 tmC2 0 (fun _ => 0)).1, ?_, ?_⟩
  · exact (claim2_occlusion camC2 tmC2 0 (fun _ => 0)).2.1 0 1 _ _ (by omega)
      marchC2_s0 marchC2_s1
  · exact (claim2_occlusion camC2 tmC2 0 (fun _ => 0)).2.2 0 1 _ _ 2 1 (by omega)
      marchC2_s0 stepHeightC2_s0 (by decide) marchC2_s1 stepHeightC2_s1 (by decide)

/-- Counterexample to claim C3 as stated: the clamp in Camera::update is
one-sided, so a velocity of -100 becomes -90 after update, and |-90| exceeds
max_speed = 5. -/
theorem claim3_counterexample :
    camNeg.max_speed = 5
    ∧ camNeg.update.velocity 0 = -90
    ∧ ¬ (|(-90 : ℚ)| ≤ 5) := by
  refine ⟨rfl, ?_, by norm_num⟩
  show clampDamp camNeg.max_speed (camNeg.velocity 0) = -90
  rw [show camNeg.velocity 0 = -100 from rfl, show camNeg.max_speed = (5:ℚ) from rfl, clampDamp]
  rw [if_neg (by norm_num : ¬ ((-100:ℚ) > 5))]
  norm_num

/-- Claim C3 amended: after Camera::update, each velocity axis is bounded
above by max_speed (whenever max_speed is nonnegative); the absolute-value
bound of the original claim fails for negative velocities. -/
theorem claim3_velocity_clamped (c : Camera) (i : Fin 3) (h : 0 ≤ c.max_speed) :
    c.update.velocity i ≤ c.max_speed := by
  show clampDamp c.max_speed (c.velocity i) ≤ c.max_speed
  exact clampDamp_le _ _ h

/-- Witness for claim C3 at the default camera. -/
theorem claim3_witness :
    (0 : ℚ) ≤ Camera.new.max_speed
    ∧ Camera.new.update.velocity 0 ≤ Camera.new.max_speed :=
  ⟨by norm_num [Camera.new], claim3_velocity_clamped Camera.new 0 (by norm_num [Camera.new])⟩

/-- Counterexample to claim C4 as stated: under a held key the velocity
stays below 9/4 forever, so it does not converge to max_speed * 0.9 = 9/2. -/
theorem claim4_counterexample :
    (¬ (∀ ε : ℚ, 0 < ε → ∃ N, ∀ n, N ≤ n → |(held n).velocity 0 - 9 / 2| < ε))
    ∧ |(held 200).velocity 0 - 9 / 2| ≥ 9 / 4 := by
  constructor
  · intro hconv
    obtain ⟨N, hN⟩ := hconv 1 one_pos
    have h := hN N le_rfl
    have hle := held_velocity_le N
    have habs : 9 / 2 - (held N).velocity 0 ≤ |(held N).velocity 0 - 9 / 2| := by
      rw [abs_sub_comm]
      exact le_abs_self _
    linarith
  · have hle := held_velocity_le 200
    rw [abs_of_nonpos (by linarith)]
    linarith

/-- Claim C4 amended: holding one direction key, the velocity after n ticks
is exactly 9/4 * (1 - (9/10)^n); it is bounded by 9/4 = acceleration * 0.9 /
(1 - 0.9) and converges to 9/4 = 2.25, not to max_speed * 0.9 = 4.5 (the
clamp never engages). -/
theorem claim4_steady_state :
    (∀ n, (held n).velocity 0 = 9 / 4 * (1 - (9 / 10 : ℚ) ^ n))
    ∧ (∀ n, (held n).velocity 0 ≤ 9 / 4)
    ∧ (∀ ε : ℚ, 0 < ε → ∃ N, ∀ n, N ≤ n → |(held n).velocity 0 - 9 / 4| < ε) :=
  ⟨held_velocity, held_velocity_le, held_tendsto⟩

/-- Witness for claim C4 at tick 1 and tolerance 1. -/
theorem claim4_witness :
    (held 1).velocity 0 = 9 / 4 * (1 - (9 / 10 : ℚ) ^ 1)
    ∧ ∃ N, ∀ n, N ≤ n → |(held n).velocity 0 - 9 / 4| < 1 :=
  ⟨claim4_steady_state.1 1, claim4_steady_state.2.2 1 one_pos⟩

/-- Claim C5: terrain sampling during the ray march is unguarded — there is
a reachable camera (the initial one) and a well-formed map for which the
flattened index leaves the height raster, so the bounds-checked embedding
hits its error branch (the render aborts with none). -/
theorem claim5_unguarded_sampling :
    ∃ (c : Camera) (tm : TerrainMap), Reachable c ∧ tm.WF ∧ c.drawNF tm = none :=
  ⟨Camera.new, tm4, Reachable.init, tm4_wf, drawNF_new_tm4⟩

/-- Claim C6: for a frame of the standard 640*480*4 length, draw composites
the intermediate buffer into a frame of exactly width*height 4-byte RGBA
pixels, each pixel taking R = G = B from the single intermediate-buffer byte
at its flat index and A = 255. -/
theorem claim6_frame_shape (c : Camera) (tm : TerrainMap) (nf : ℕ → ℕ) (frame : List ℕ)
    (h : c.drawNF tm = some nf) (hlen : frame.length = 4 * (SCREEN_WIDTH * SCREEN_HEIGHT)) :
    c.draw frame tm = some (composite nf 0 frame)
    ∧ (composite nf 0 frame).length = 4 * (SCREEN_WIDTH * SCREEN_HEIGHT)
    ∧ ∀ i, i < SCREEN_WIDTH * SCREEN_HEIGHT →
        (composite nf 0 frame).get? (4 * i) = some (nf i)
        ∧ (composite nf 0 frame).get? (4 * i + 1) = some (nf i)
        ∧ (composite nf 0 frame).get? (4 * i + 2) = some (nf i)
        ∧ (composite nf 0 frame).get? (4 * i + 3) = some 255 := by
  refine ⟨?_, ?_, ?_⟩
  · rw [Camera.draw, h]
    rfl
  · rw [composite_length, hlen]
  · intro i hi
    have hle : 4 * (i + 1) ≤ frame.length := by
      rw [hlen]
      exact Nat.mul_le_mul_left 4 hi
    have h4 := composite_getElem nf i 0 frame hle
    refine ⟨by simpa using h4.1, by simpa using h4.2.1, by simpa using h4.2.2.1, h4.2.2.2⟩

/-- Witness for claim C6 with a far-clip-0 camera and a standard frame. -/
theorem claim6_witness :
    camZ.draw frameZ tmZ = some (composite (fun _ => 0) 0 frameZ)
    ∧ (composite (fun _ => (0:ℕ)) 0 frameZ).length = 4 * (SCREEN_WIDTH * SCREEN_HEIGHT)
    ∧ (composite (fun _ => (0:ℕ)) 0 frameZ).get? (4 * 0) = some 0
    ∧ (composite (fun _ => (0:ℕ)) 0 frameZ).get? (4 * 0 + 3) = some 255 := by
  have h := claim6_frame_shape camZ tmZ (fun _ => 0) frameZ (drawNF_camZ tmZ)
    (by rw [frameZ, List.length_replicate])
  exact ⟨h.1, h.2.1, (h.2.2 0 (by decide)).1, (h.2.2 0 (by decide)).2.2.2⟩

/-- Counterexample to claim C7 as stated: with a flat height-1 map, pixel
(0,1) lies above the tallest-seen sample of column 0, yet render overwrites
it: the framebuffer held byte 7 there and the output byte is 0. -/
theorem claim7_counterexample :
    ((camC7.draw frameZ tmC7).bind (fun out => out.get? (4 * SCREEN_WIDTH)) = some 0)
    ∧ frameZ.get? (4 * SCREEN_WIDTH) = some 7
    ∧ (0 : ℕ) ≠ 7 := by
  refine ⟨?_, ?_, by decide⟩
  · rw [draw_flat frameZ]
    simp only [Option.some_bind]
    have hlen : 4 * (SCREEN_WIDTH + 1) ≤ frameZ.length := by
      rw [frameZ, List.length_replicate]
      decide
    rw [(composite_getElem (paintF^[SCREEN_WIDTH] (fun _ => 0)) SCREEN_WIDTH 0 frameZ hlen).1,
      Nat.zero_add, paintF_iterate_ge3 SCREEN_WIDTH SCREEN_WIDTH (by decide) _]
  · rw [frameZ, list_get?_replicate 7 _ _ (by decide)]

/-- Claim C7 amended: painting only ever touches rows [0, SCREEN_HEIGHT) of
the intermediate buffer, but compositing overwrites every pixel of the
supplied frame: each pixel becomes (nf i, nf i, nf i, 255) regardless of its
previous content, so unpainted pixels show the intermediate buffer's cleared
value 0, not the framebuffer's prior (sky) bytes. -/
theorem claim7_rows_and_overwrite (c : Camera) (tm : TerrainMap) (nf : ℕ → ℕ)
    (h : c.drawNF tm = some nf) :
    (∀ j, SCREEN_WIDTH * SCREEN_HEIGHT ≤ j → nf j = 0)
    ∧ (∀ frame : List ℕ, frame.length = 4 * (SCREEN_WIDTH * SCREEN_HEIGHT) →
        c.draw frame tm = some (composite nf 0 frame))
    ∧ (∀ (frame : List ℕ) (i : ℕ), 4 * (i + 1) ≤ frame.length →
        (composite nf 0 frame).get? (4 * i) = some (nf i)
        ∧ (composite nf 0 frame).get? (4 * i + 3) = some 255) := by
  refine ⟨?_, ?_, ?_⟩
  · intro j hj
    rw [Camera.drawNF] at h
    exact renderNF_nfHighRows _ _ _ _ _ h j hj
  · intro frame _
    rw [Camera.draw, h]
    rfl
  · intro frame i hle
    have h4 := composite_getElem nf i 0 frame hle
    exact ⟨by simpa using h4.1, h4.2.2.2⟩

/-- Witness for claim C7 with a far-clip-0 camera and a standard frame. -/
theorem claim7_witness :
    camZ.draw frameZ tmZ = some (composite (fun _ => 0) 0 frameZ)
    ∧ (composite (fun _ => (0:ℕ)) 0 frameZ).get? (4 * 1) = some 0
    ∧ (composite (fun _ => (0:ℕ)) 0 frameZ).get? (4 * 1 + 3) = some 255 := by
  have h := claim7_rows_and_overwrite camZ tmZ (fun _ => 0) (drawNF_camZ tmZ)
  refine ⟨h.2.1 frameZ (by rw [frameZ, List.length_replicate]), ?_, ?_⟩
  · exact (h.2.2 frameZ 1 (by rw [frameZ, List.length_replicate]; decide)).1
  · exact (h.2.2 frameZ 1 (by rw [frameZ, List.length_replicate]; decide)).2

/-- Counterexample to claim C8 as stated: TerrainMap::new does not validate
that the two images have equal dimensions; decoding a 1x1 color image with a
2x1 height image yields rasters of lengths 4 and 8. -/
theorem claim8_counterexample :
    (TerrainMap.new img1 img2).color_map.length = 4
    ∧ (TerrainMap.new img1 img2).height_map.length = 8
    ∧ (4 : ℕ) ≠ 8 :=
  ⟨rfl, rfl, by decide⟩

/-- Claim C8 amended: provided the two decoded images have identical
dimensions, the constructed map's rasters have equal lengths, both
4 * width * height of the stored dimensions (taken from the color image). -/
theorem claim8_raster_lengths (ci hi : Image) (hw : ci.width = hi.width)
    (hh : ci.height = hi.height) :
    (TerrainMap.new ci hi).color_map.length = (TerrainMap.new ci hi).height_map.length
    ∧ (TerrainMap.new ci hi).color_map.length
        = 4 * ((TerrainMap.new ci hi).map_dimensions.1 * (TerrainMap.new ci hi).map_dimensions.2)
    ∧ (TerrainMap.new ci hi).height_map.length
        = 4 * ((TerrainMap.new ci hi).map_dimensions.1 * (TerrainMap.new ci hi).map_dimensions.2) := by
  have hc : (TerrainMap.new ci hi).color_map.length = 4 * (ci.width * ci.height) :=
    ci.rgba_length
  have hht : (TerrainMap.new ci hi).height_map.length = 4 * (hi.width * hi.height) :=
    hi.rgba_length
  have hdim1 : (TerrainMap.new ci hi).map_dimensions.1 = ci.width := rfl
  have hdim2 : (TerrainMap.new ci hi).map_dimensions.2 = ci.height := rfl
  refine ⟨?_, ?_, ?_⟩
  · rw [hc, hht, hw, hh]
  · rw [hc, hdim1, hdim2]
  · rw [hht, hdim1, hdim2, hw, hh]

lemma img1_img3_width : img1.width = img3.width := rfl

lemma img1_img3_height : img1.height = img3.height := rfl

/-- Witness for claim C8 with two equal-dimension 1x1 images. -/
theorem claim8_witness :
    (TerrainMap.new img1 img3).color_map.length = (TerrainMap.new img1 img3).height_map.length
    ∧ (TerrainMap.new img1 img3).color_map.length
        = 4 * ((TerrainMap.new img1 img3).map_dimensions.1 * (TerrainMap.new img1 img3).map_dimensions.2) := by
  have h := claim8_raster_lengths img1 img3 img1_img3_width img1_img3_height
  exact ⟨h.1, h.2.1⟩

/-- Claim C9: the projection consumes neither rotation nor position z (nor
velocity): two cameras agreeing on position x, position y, far_clip and the
motion constants render byte-for-byte identical frames. -/
theorem claim9_projection_ignores_rotation_z (c1 c2 : Camera) (tm : TerrainMap)
    (frame : List ℕ)
    (hx : c1.position 0 = c2.position 0) (hy : c1.position 1 = c2.position 1)
    (hf : c1.far_clip = c2.far_clip) (_ha : c1.acceleration = c2.acceleration)
    (_hm : c1.max_speed = c2.max_speed) :
    c1.draw frame tm = c2.draw frame tm := by
  rw [Camera.draw, Camera.draw, Camera.drawNF, Camera.drawNF, hx, hy, hf]

/-- Witness for claim C9: two cameras differing in rotation and z position
render identically. -/
theorem claim9_witness :
    camA.draw [] tmZ = camB.draw [] tmZ
    ∧ camA.rotation 1 ≠ camB.rotation 1
    ∧ camA.position 2 ≠ camB.position 2 :=
  ⟨claim9_projection_ignores_rotation_z camA camB tmZ [] rfl rfl rfl rfl rfl,
    by decide, by decide⟩

/-- Claim C10: the float-to-usize cast saturates negative coordinates to 0,
so leaving the map on the negative side of either axis clamps the ray to
column 0 / row 0; whenever both cast coordinates stay below the positive map
extents the flattened index is inside the height raster. -/
theorem claim10_negative_saturation (tm : TerrainMap) (hwf : tm.WF) (x y : ℚ) :
    (x < 0 → f32ToUsize x = 0)
    ∧ (y < 0 → f32ToUsize y = 0)
    ∧ (x < (tm.map_dimensions.1 : ℚ) → y < (tm.map_dimensions.2 : ℚ) →
        mapOffset tm x y < tm.height_map.length) := by
  obtain ⟨hw, hh, _, hhl, _, _⟩ := hwf
  refine ⟨fun hx => f32ToUsize_neg x hx, fun hy => f32ToUsize_neg y hy, ?_⟩
  intro hx hy
  have hfx : f32ToUsize x < tm.map_dimensions.1 := f32ToUsize_lt x _ hx hw
  have hfy : f32ToUsize y < tm.map_dimensions.2 := f32ToUsize_lt y _ hy hh
  rw [mapOffset, hhl]
  have h1 : tm.map_dimensions.1 * (f32ToUsize y + 1)
      ≤ tm.map_dimensions.1 * tm.map_dimensions.2 :=
    Nat.mul_le_mul_left _ hfy
  rw [Nat.mul_succ] at h1
  omega

/-- Witness for claim C10 on the 4x4 map with negative coordinates. -/
theorem claim10_witness :
    f32ToUsize (-3) = 0
    ∧ f32ToUsize (-1) = 0
    ∧ mapOffset tm4 (-3) (-1) < tm4.height_map.length := by
  have h := claim10_negative_saturation tm4 tm4_wf (-3) (-1)
  exact ⟨h.1 (by norm_num), h.2.1 (by norm_num),
    h.2.2 neg3_lt_tm4_width neg1_lt_tm4_height⟩
